import Mathlib

/-!
Shallow embedding of `search_engine.py`, a small in-memory IR system:
tokenizer, index construction (`build_index` / `index_document`), boolean
query evaluation (`boolean_query` / `execute_chained_booleans`) and TF-IDF
ranking (`tfidf_query` / `tfidf` / `tf` / `idf`).

Modelling conventions:
* The module-level globals `dataset` and `inverted_index` form a `State`
  record; operations that read or write them are state transformers
  returning a (value, state) pair, so that "queries never mutate" is a
  provable statement rather than an assumption.
* Python dictionaries (`defaultdict(int)`, `defaultdict(set)`) are
  association lists with unique keys; `dict.get` is a pure lookup
  (it never inserts, even on a defaultdict), while subscripting a
  defaultdict inserts a default entry (`iiAdd`).
* Python float arithmetic is modelled over `ℚ`; `math.log` is modelled by
  an arbitrary fixed function `log : ℕ → ℚ` supplied as a parameter (the
  claims proved here do not depend on its analytic value).
* Runtime errors (IndexError, ZeroDivisionError, TypeError from
  `reduce()` of an empty sequence, NameError, ValueError from
  `math.log(0)`) are modelled as `none`.
* The filesystem walk of `build_index` is abstracted as the enumerated
  corpus: a list of `(filename, contents)` pairs in enumeration order;
  `read_file` is abstracted by supplying `contents` directly.
* Python set iteration order is unspecified; it is determinized as
  ascending id order (CPython 2 iterates a set of small ints ascending).
-/

namespace SearchEngine

/-- Characters matched by the regular expression `[a-z0-9]+` of
`extract_words` (applied after lowercasing). -/
def isWordChar (c : Char) : Bool :=
  ('a' ≤ c && c ≤ 'z') || ('0' ≤ c && c ≤ '9')

/-- Helper for `extract_words`: scans the characters, accumulating the
current run of word characters in reverse; a run is emitted when a
separator or the end of the input is reached.  This mirrors
`re.findall('[a-z0-9]+', ...)`, which returns the maximal matching runs. -/
def ewAux : List Char → List Char → List String
  | [], acc => if acc.isEmpty then [] else [String.mk acc.reverse]
  | c :: rest, acc =>
    if isWordChar c then ewAux rest (c :: acc)
    else if acc.isEmpty then ewAux rest []
    else String.mk acc.reverse :: ewAux rest []

/-- `extract_words = re.compile('[a-z0-9]+').findall`. -/
def extract_words (cs : List Char) : List String := ewAux cs []

/-- `tokenize(document)`: lowercase the input, then keep the maximal runs
of letters and digits.  `str.lower` is modelled by `Char.toLower`. -/
def tokenize (s : String) : List String :=
  extract_words (s.data.map Char.toLower)

/-- One entry of the module-level `dataset` list: a document record
`{"filename": ..., "counts": ..., "length": ...}`.  The `counts`
`defaultdict(int)` is modelled as an association list with unique keys;
a key is present exactly when it was incremented at least once. -/
structure Doc where
  filename : String
  counts : List (String × ℕ)
  length : ℕ
deriving DecidableEq

/-- A fallback document record (used only to state lookups with `getD`). -/
def defaultDoc : Doc := ⟨"", [], 0⟩

/-- The module-level `inverted_index`, a `defaultdict(set)` from term to
the set of ids of documents containing it, as an association list. -/
abbrev InvIndex : Type := List (String × Finset ℕ)

/-- The module-level mutable state: the globals `dataset` and
`inverted_index`. -/
structure State where
  dataset : List Doc
  inverted_index : InvIndex
deriving DecidableEq

/-- The state right after module load: `dataset = []` and an empty
`inverted_index`. -/
def emptyState : State := ⟨[], []⟩

/-- Ascending insertion used by `setToList`. -/
def insertAsc (x : ℕ) : List ℕ → List ℕ
  | [] => [x]
  | y :: ys => if x ≤ y then x :: y :: ys else y :: insertAsc x ys

theorem insertAsc_comm (a b : ℕ) : ∀ (l : List ℕ),
    insertAsc a (insertAsc b l) = insertAsc b (insertAsc a l)
  | [] => by
    by_cases hab : a ≤ b
    · by_cases hba : b ≤ a
      · have h : a = b := Nat.le_antisymm hab hba
        subst h; rfl
      · simp [insertAsc, hab, hba]
    · have hba : b ≤ a := by omega
      simp [insertAsc, hab, hba]
  | y :: ys => by
    have ih := insertAsc_comm a b ys
    by_cases hby : b ≤ y
    · by_cases hay : a ≤ y
      · by_cases hab : a ≤ b
        · by_cases hba : b ≤ a
          · have h : a = b := Nat.le_antisymm hab hba
            subst h; rfl
          · simp [insertAsc, hby, hay, hab, hba]
        · have hba : b ≤ a := by omega
          simp [insertAsc, hby, hay, hab, hba]
      · have hab : ¬ a ≤ b := by omega
        simp [insertAsc, hby, hay, hab]
    · by_cases hay : a ≤ y
      · have hba : ¬ b ≤ a := by omega
        simp [insertAsc, hby, hay, hba]
      · simp [insertAsc, hby, hay, ih]

instance : LeftCommutative insertAsc := ⟨insertAsc_comm⟩

/-- `list(s)` on a Python set of document ids.  CPython's set iteration
order is unspecified; it is determinized here as ascending id order (the
order CPython 2 produces for a set of small ints), realized as an
insertion fold over the underlying multiset — insertion into an ordered
list is left-commutative, which makes the fold well defined. -/
def setToList (r : Finset ℕ) : List ℕ := Multiset.foldr insertAsc [] r.val

/-- Association-list lookup (Python `dict` read access by key). -/
def alookup {α : Type} : List (String × α) → String → Option α
  | [], _ => none
  | (k, v) :: rest, t => if k = t then some v else alookup rest t

/-- `inverted_index.get(t, set())`: the posting set of `t`, the empty set
if the term is absent. -/
def iiGet (ii : InvIndex) (t : String) : Finset ℕ := (alookup ii t).getD ∅

/-- `inverted_index[t].add(f_id)` on the `defaultdict(set)`: subscripting
inserts an empty-set entry if the key is missing, then `f_id` is added. -/
def iiAdd : InvIndex → String → ℕ → InvIndex
  | [], t, i => [(t, {i})]
  | (k, v) :: rest, t, i =>
    if k = t then (k, insert i v) :: rest else (k, v) :: iiAdd rest t i

/-- `counts[t] += 1` on the `defaultdict(int)`: inserts the key with value
`1` if missing, otherwise increments the stored value. -/
def bump : List (String × ℕ) → String → List (String × ℕ)
  | [], t => [(t, 1)]
  | (k, v) :: rest, t =>
    if k = t then (k, v + 1) :: rest else (k, v) :: bump rest t

/-- `index_document(filename, f_id)`: tokenizes the document contents,
adds `f_id` to the inverted-index posting set of every token and bumps the
token's count, and returns the document record together with the updated
inverted index (the source mutates the global; here it is threaded).
Reading the file is abstracted by supplying `contents`. -/
def index_document (ii : InvIndex) (filename contents : String) (f_id : ℕ) :
    Doc × InvIndex :=
  let tokens := tokenize contents
  let step := tokens.foldl
    (fun (p : List (String × ℕ) × InvIndex) t => (bump p.1 t, iiAdd p.2 t f_id))
    ([], ii)
  ({ filename := filename, counts := step.1, length := tokens.length }, step.2)

/-- The comprehension loop of `build_index`:
`[index_document(filename, f_id) for f_id, filename in enumerate(...)]`,
where `f_id` is the enumeration position, i.e. the number of documents
already indexed.  The inverted index accumulator starts from the
pre-existing one: `build_index` reassigns the global `dataset` but never
clears the global `inverted_index`. -/
def buildAux : InvIndex → List Doc → List (String × String) → List Doc × InvIndex
  | ii, docs, [] => (docs, ii)
  | ii, docs, (fn, txt) :: rest =>
    let step := index_document ii fn txt docs.length
    buildAux step.2 (docs ++ [step.1]) rest

/-- `build_index(root_path)`, with the filesystem walk abstracted as the
enumerated `corpus` of `(filename, contents)` pairs: rebuilds the document
store from scratch, while the inverted index keeps whatever entries it
already had (the source never resets it). -/
def build_index (s : State) (corpus : List (String × String)) : State :=
  let step := buildAux s.inverted_index [] corpus
  { dataset := step.1, inverted_index := step.2 }

/-- The `set_op` lambda inside `execute_chained_booleans`: `"and"`
intersects the accumulator with `y`, `"or"` unions it, and any other token
in operator position matches neither branch and leaves `s` unchanged. -/
def set_op (s : Finset ℕ) (x : String) (y : Finset ℕ) : Finset ℕ :=
  if x = "and" then s ∩ y else if x = "or" then s ∪ y else s

/-- `inverted_index.get(term, set())` as a state transformer: `dict.get`
performs no insertion even on a defaultdict, so the state comes back
unchanged (contrast `iiAdd`, the embedding of a defaultdict subscript). -/
def dgetII (s : State) (t : String) : Finset ℕ × State :=
  (iiGet s.inverted_index t, s)

/-- `execute_chained_booleans(result, ops)`: consumes `(operator, term)`
pairs left to right (the source reverses `ops` and pops from the end,
which is front-of-original order) and applies `set_op`.  A single leftover
token makes the second `pop()` raise IndexError, modelled as `none`. -/
def execute_chained_booleans (s : State) (result : Finset ℕ) :
    List String → Option (Finset ℕ) × State
  | [] => (some result, s)
  | [_] => (none, s)
  | op :: term :: rest =>
    let y := dgetII s term
    execute_chained_booleans y.2 (set_op result op y.1) rest

/-- `boolean_query(querystring, max_results)`: prepends the synthetic
leading `"or"` to the tokenized query, rejects the query when the
resulting list has odd length (the source prints a format-error message
and returns `None`, modelled as `none`), otherwise evaluates the chain
and returns the result set as a list truncated to `max_results`. -/
def boolean_query (s : State) (querystring : String) (max_results : ℕ) :
    Option (List ℕ) × State :=
  let ops := "or" :: tokenize querystring
  if ops.length % 2 ≠ 0 then (none, s)
  else
    let r := execute_chained_booleans s ∅ ops
    match r.1 with
    | none => (none, r.2)
    | some res => (some ((setToList res).take max_results), r.2)

/-- The Python 2 comparison `score > result_set[0]` between a number and a
tuple: CPython 2 orders values of different types by type name, with
numbers smaller than everything else, so a number is never greater than a
tuple and the comparison is always `false`. -/
def py2_num_gt_tuple (_ : ℚ) (_ : ℚ × ℕ) : Bool := false

/-- `dataset[docid]`: a list read; an out-of-range index raises
IndexError, modelled as `none`. -/
def datasetAt (s : State) (docid : ℕ) : Option Doc × State :=
  (s.dataset.get? docid, s)

/-- `tf(word, docid)`:
`dataset[docid]["counts"].get(word, 0) / float(dataset[docid]["length"])`.
Division by a zero length raises ZeroDivisionError, modelled as `none`. -/
def tf (s : State) (word : String) (docid : ℕ) : Option ℚ × State :=
  let d := datasetAt s docid
  match d.1 with
  | none => (none, d.2)
  | some doc =>
    if doc.length = 0 then (none, d.2)
    else (some (((alookup doc.counts word).getD 0 : ℚ) / (doc.length : ℚ)), d.2)

/-- `idf(word) = math.log(len(dataset)) / (1.0 + len(inverted_index.get(word, [])))`.
`math.log(0)` raises ValueError (math domain error), modelled as `none`
when the dataset is empty. -/
def idf (log : ℕ → ℚ) (s : State) (word : String) : Option ℚ × State :=
  let p := dgetII s word
  if s.dataset.length = 0 then (none, p.2)
  else (some (log s.dataset.length / (1 + (p.1.card : ℚ))), p.2)

/-- `tfidf(word, docid) = tf(word, docid) * idf(word)`; an error in either
factor propagates. -/
def tfidf (log : ℕ → ℚ) (s : State) (word : String) (docid : ℕ) :
    Option ℚ × State :=
  let a := tf s word docid
  match a.1 with
  | none => (none, a.2)
  | some x =>
    let b := idf log a.2 word
    match b.1 with
    | none => (none, b.2)
    | some y => (some (x * y), b.2)

/-- `sum(tfidf(w, c) for w in tokenize(querystring))`: a left-to-right
sum; an exception in any summand propagates. -/
def scoreOf (log : ℕ → ℚ) (s : State) : List String → ℕ → Option ℚ × State
  | [], _ => (some 0, s)
  | w :: rest, c =>
    let a := tfidf log s w c
    match a.1 with
    | none => (none, a.2)
    | some x =>
      let r := scoreOf log a.2 rest c
      match r.1 with
      | none => (none, r.2)
      | some y => (some (x + y), r.2)

/-- The comprehension
`[inverted_index.get(w, set()) for w in tokenize(querystring)]`. -/
def postingsOf (s : State) : List String → List (Finset ℕ) × State
  | [] => ([], s)
  | w :: rest =>
    let p := dgetII s w
    let q := postingsOf p.2 rest
    (p.1 :: q.1, q.2)

/-- `reduce(set.union, postings)`: left fold of union over a non-empty
list; `reduce()` of an empty sequence with no initial value raises
TypeError, modelled as `none`. -/
def reduceUnion : List (Finset ℕ) → Option (Finset ℕ)
  | [] => none
  | x :: xs => some (xs.foldl (· ∪ ·) x)

/-- The minimum element of the heap list (`result_set[0]`), with respect
to the lexicographic tuple order that Python's `heapq` maintains; `none`
(IndexError) on an empty list. -/
def heapMin : List (ℚ × ℕ) → Option (ℚ × ℕ)
  | [] => none
  | x :: xs =>
    some (xs.foldl (fun a b => if a.1 < b.1 ∨ (a.1 = b.1 ∧ a.2 ≤ b.2) then a else b) x)

/-- Insertion step of `sortPairsDesc`: inserts `x` in front of the first
element that is lexicographically at most `x`. -/
def insertDesc (x : ℚ × ℕ) : List (ℚ × ℕ) → List (ℚ × ℕ)
  | [] => [x]
  | y :: ys =>
    if y.1 < x.1 ∨ (y.1 = x.1 ∧ y.2 ≤ x.2) then x :: y :: ys
    else y :: insertDesc x ys

/-- `result_set.sort(reverse=True)`: sorts the `(score, id)` pairs into
descending lexicographic tuple order (ties on score put the higher id
first). -/
def sortPairsDesc : List (ℚ × ℕ) → List (ℚ × ℕ)
  | [] => []
  | x :: xs => insertDesc x (sortPairsDesc xs)

/-- The candidate loop of `tfidf_query`.  Below capacity, `heappush`
inserts the `(score, c)` pair (the heap is modelled as the list of its
members: only its member multiset and its minimum are ever observed).
At capacity the source compares the bare `score` with the stored tuple
`result_set[0]` (`py2_num_gt_tuple`, always `false`); if the branch were
ever taken it would evaluate `heapreplace(resultset, ...)` where
`resultset` is a misspelled, undefined name and raise NameError, modelled
as `none`.  Reading `result_set[0]` from an empty heap (capacity 0)
raises IndexError, modelled as `none`. -/
def tfidfScan (log : ℕ → ℚ) (qtoks : List String) (max_results : ℕ) :
    State → List ℕ → List (ℚ × ℕ) → Option (List (ℚ × ℕ)) × State
  | s, [], acc => (some acc, s)
  | s, c :: rest, acc =>
    let a := scoreOf log s qtoks c
    match a.1 with
    | none => (none, a.2)
    | some score =>
      if acc.length < max_results then
        tfidfScan log qtoks max_results a.2 rest (acc ++ [(score, c)])
      else
        match heapMin acc with
        | none => (none, a.2)
        | some m =>
          if py2_num_gt_tuple score m then (none, a.2)
          else tfidfScan log qtoks max_results a.2 rest acc

/-- `tfidf_query(querystring, max_results)`: unions the posting sets of
the query tokens into the candidate set (none on an empty token list, see
`reduceUnion`), scans the candidates (in ascending id order, the
determinization of Python's set iteration), sorts the surviving
`(score, id)` pairs descending and returns the ids. -/
def tfidf_query (log : ℕ → ℚ) (s : State) (querystring : String)
    (max_results : ℕ) : Option (List ℕ) × State :=
  let ps := postingsOf s (tokenize querystring)
  match reduceUnion ps.1 with
  | none => (none, ps.2)
  | some candidates =>
    let r := tfidfScan log (tokenize querystring) max_results ps.2
      (setToList candidates) []
    match r.1 with
    | none => (none, r.2)
    | some resl => (some ((sortPairsDesc resl).map Prod.snd), r.2)

/-- Specification-side left fold for boolean evaluation (spec §4.3): fold
the `(operator, term)` pairs left to right starting from the empty result
set; `"or"` unions the term's posting set, `"and"` intersects it. -/
def boolSpecFold (ii : InvIndex) (pairs : List (String × String)) : Finset ℕ :=
  pairs.foldl
    (fun acc p => if p.1 = "and" then acc ∩ iiGet ii p.2 else acc ∪ iiGet ii p.2) ∅

/-- The strict alternation `term (OP term)*` flattened back into a token
list: the first term followed by the interleaved operator/term pairs. -/
def alternation (first : String) (pairs : List (String × String)) : List String :=
  first :: pairs.flatMap (fun p => [p.1, p.2])

/-- The union of the posting sets of the given query terms. -/
def unionPostings (ii : InvIndex) (toks : List String) : Finset ℕ :=
  toks.foldl (fun a w => a ∪ iiGet ii w) ∅

/-- The sum of the values stored in a counts dictionary. -/
def valsum (c : List (String × ℕ)) : ℕ := (c.map Prod.snd).sum

/-- The value `tfidf(word, docid)` computes when no error occurs. -/
def tfidfValue (log : ℕ → ℚ) (s : State) (word : String) (docid : ℕ) : ℚ :=
  (((alookup (s.dataset.getD docid defaultDoc).counts word).getD 0 : ℚ) /
      ((s.dataset.getD docid defaultDoc).length : ℚ)) *
    (log s.dataset.length / (1 + ((iiGet s.inverted_index word).card : ℚ)))

/-! ### Helper lemmas: boolean evaluation -/

theorem execute_state : ∀ (ops : List String) (s : State) (acc : Finset ℕ),
    (execute_chained_booleans s acc ops).2 = s
  | [], _, _ => rfl
  | [_], _, _ => rfl
  | op :: term :: rest, s, acc => by
    have ih := execute_state rest s (set_op acc op (iiGet s.inverted_index term))
    simpa [execute_chained_booleans, dgetII] using ih

theorem flatMap_pairs_length (pairs : List (String × String)) :
    (pairs.flatMap (fun p => [p.1, p.2])).length = 2 * pairs.length := by
  induction pairs with
  | nil => rfl
  | cons p ps ih =>
    simp only [List.flatMap_cons, List.length_append, List.length_cons, List.length_nil, ih]
    omega

theorem set_op_valid (acc y : Finset ℕ) {x : String} (h : x = "and" ∨ x = "or") :
    set_op acc x y = if x = "and" then acc ∩ y else acc ∪ y := by
  rcases h with h | h <;> simp [set_op, h]

theorem execute_pairs : ∀ (pairs : List (String × String)) (s : State) (acc : Finset ℕ),
    (∀ p ∈ pairs, p.1 = "and" ∨ p.1 = "or") →
    execute_chained_booleans s acc (pairs.flatMap (fun p => [p.1, p.2])) =
      (some (pairs.foldl
        (fun a p => if p.1 = "and" then a ∩ iiGet s.inverted_index p.2
          else a ∪ iiGet s.inverted_index p.2) acc), s)
  | [], _, _, _ => rfl
  | p :: ps, s, acc, h => by
    have hp := h p (by simp)
    have ih := execute_pairs ps s (set_op acc p.1 (iiGet s.inverted_index p.2))
      (fun q hq => h q (by simp [hq]))
    have hstep : (p :: ps).flatMap (fun q => [q.1, q.2]) =
        p.1 :: p.2 :: ps.flatMap (fun q => [q.1, q.2]) := by simp
    rw [hstep, List.foldl_cons, ← set_op_valid acc (iiGet s.inverted_index p.2) hp]
    simpa [execute_chained_booleans, dgetII] using ih

theorem execute_total : ∀ (ops : List String), ops.length % 2 = 0 →
    ∀ (s : State) (acc : Finset ℕ), ∃ r, execute_chained_booleans s acc ops = (some r, s)
  | [], _, _, acc => ⟨acc, rfl⟩
  | [_], h, _, _ => by simp at h
  | op :: term :: rest, h, s, acc => by
    have h2 : rest.length % 2 = 0 := by
      simp only [List.length_cons] at h; omega
    obtain ⟨r, hr⟩ := execute_total rest h2 s (set_op acc op (iiGet s.inverted_index term))
    exact ⟨r, by simpa [execute_chained_booleans, dgetII] using hr⟩

/-! ### Claim C2: well-formed boolean queries evaluate as a flat left fold -/

/-- **C2**: for every well-formed boolean query — one whose token stream is
the strict alternation `term (OP term)*` with every operator `"and"` or
`"or"` (tokenization has already lowercased the case-insensitive
operators) — `boolean_query` evaluates it as the left-to-right fold of the
`(operator, term)` pairs starting from the empty set, with the neutral
leading `("or", first term)` pair unioning in the first term's posting set
(`iiGet` returns the empty set for an absent term), `"or"` unioning and
`"and"` intersecting with flat left-to-right precedence; the returned list
is the final result set truncated to at most `max_results` ids. -/
theorem boolean_query_well_formed_fold (s : State) (q : String) (k : ℕ)
    (first : String) (pairs : List (String × String))
    (htok : tokenize q = alternation first pairs)
    (hops : ∀ p ∈ pairs, p.1 = "and" ∨ p.1 = "or") :
    (boolean_query s q k).1 =
      some ((setToList (boolSpecFold s.inverted_index (("or", first) :: pairs))).take k) := by
  have hflat : "or" :: tokenize q =
      ((("or", first) :: pairs).flatMap (fun p => [p.1, p.2])) := by
    simp [htok, alternation]
  have hops2 : ∀ p ∈ (("or", first) :: pairs), p.1 = "and" ∨ p.1 = "or" := by
    intro p hp
    rcases List.mem_cons.mp hp with h | h
    · right; rw [h]
    · exact hops p h
  have hexec := execute_pairs (("or", first) :: pairs) s ∅ hops2
  simp only [boolean_query]
  rw [hflat, if_neg (by rw [flatMap_pairs_length]; omega), hexec]
  rfl

/-- Closed instance for the C2 theorem: the query `"cat AND dog"` over a
two-document corpus evaluates to the intersection of the postings. -/
theorem boolean_query_well_formed_fold_witness :
    (boolean_query (build_index emptyState [("d0", "cat dog"), ("d1", "cat")])
        "cat AND dog" 10).1 =
      some ((setToList (boolSpecFold
        (build_index emptyState [("d0", "cat dog"), ("d1", "cat")]).inverted_index
        (("or", "cat") :: [("and", "dog")]))).take 10) :=
  boolean_query_well_formed_fold _ _ _ "cat" [("and", "dog")] (by decide) (by decide)

/-! ### Claim C5: which queries the format check actually rejects -/

/-- **C5 counterexample**: the claim states that every query whose token
stream fails the strict alternation `term (OP term)*` is rejected with a
format error.  The three-token query `"a b c"` is such a query — its
middle token `"b"`, the only possible operator position, is neither
`"and"` nor `"or"` — yet `boolean_query` accepts it (the parity check
passes: four tokens after the synthetic leading `"or"`) and returns a
result, treating `"b"` as a no-op operator. -/
theorem boolean_query_malformed_accepted :
    tokenize "a b c" = ["a", "b", "c"] ∧
    ¬("b" = "and" ∨ "b" = "or") ∧
    (boolean_query emptyState "a b c" 10).1 = some [] := by decide

/-- **C5 amended**: `boolean_query` rejects a query with a format error
(no result returned) exactly when the total token count is odd once the
synthetic leading `"or"` is prepended — equivalently, when the query
itself has an even number of tokens.  This rejects an unterminated
trailing operator such as `"a AND"` and an even-length run of adjacent
terms such as `"a b"`, but a strict-alternation violation with an odd
token count (such as `"a b c"`) is accepted, with non-operator tokens in
operator positions acting as no-ops. -/
theorem boolean_query_reject_iff_even_tokens (s : State) (q : String) (k : ℕ) :
    (boolean_query s q k).1 = none ↔ (tokenize q).length % 2 = 0 := by
  constructor
  · intro h
    by_contra hodd
    have hlen : ("or" :: tokenize q).length % 2 = 0 := by
      simp only [List.length_cons]; omega
    obtain ⟨r, hr⟩ := execute_total ("or" :: tokenize q) hlen s ∅
    simp only [boolean_query, hlen, ne_eq, not_true_eq_false, if_false,
      not_false_eq_true, if_true, hr] at h
    exact Option.noConfusion h
  · intro h
    have hlen : ("or" :: tokenize q).length % 2 ≠ 0 := by
      simp only [List.length_cons]; omega
    simp only [boolean_query, hlen, ne_eq, not_false_eq_true, if_true]

/-! ### Helper lemmas: set extraction -/

theorem mem_insertAsc (a x : ℕ) : ∀ (l : List ℕ), a ∈ insertAsc x l ↔ a = x ∨ a ∈ l
  | [] => by simp [insertAsc]
  | y :: ys => by
    simp only [insertAsc]
    by_cases h : x ≤ y
    · rw [if_pos h]; simp [List.mem_cons]
    · rw [if_neg h]
      simp only [List.mem_cons, mem_insertAsc a x ys]
      tauto

theorem mem_setToList (a : ℕ) (r : Finset ℕ) : a ∈ setToList r ↔ a ∈ r := by
  rcases r with ⟨m, hm⟩
  rw [Finset.mem_mk]
  show a ∈ Multiset.foldr insertAsc [] m ↔ _
  refine Quot.inductionOn m (fun l => ?_)
  show a ∈ Multiset.foldr insertAsc [] ↑l ↔ a ∈ (↑l : Multiset ℕ)
  rw [Multiset.coe_foldr, Multiset.mem_coe]
  induction l with
  | nil => simp
  | cons x xs ih => simp [List.foldr_cons, mem_insertAsc, ih]

/-! ### Helper lemmas: queries thread the state through unchanged -/

theorem tf_state (s : State) (w : String) (c : ℕ) : (tf s w c).2 = s := by
  simp only [tf, datasetAt]
  split
  · rfl
  · split <;> rfl

theorem idf_state (log : ℕ → ℚ) (s : State) (w : String) : (idf log s w).2 = s := by
  simp only [idf, dgetII]
  split <;> rfl

theorem tfidf_state (log : ℕ → ℚ) (s : State) (w : String) (c : ℕ) :
    (tfidf log s w c).2 = s := by
  have h1 := tf_state s w c
  have h2 := idf_state log (tf s w c).2 w
  simp only [tfidf]
  split
  · exact h1
  · split <;> simp_all

theorem scoreOf_state (log : ℕ → ℚ) : ∀ (toks : List String) (s : State) (c : ℕ),
    (scoreOf log s toks c).2 = s
  | [], _, _ => rfl
  | w :: rest, s, c => by
    have h1 := tfidf_state log s w c
    have h2 := scoreOf_state log rest (tfidf log s w c).2 c
    simp only [scoreOf]
    split
    · exact h1
    · split <;> simp_all

theorem postingsOf_state : ∀ (toks : List String) (s : State),
    (postingsOf s toks).2 = s
  | [], _ => rfl
  | w :: rest, s => by
    have h := postingsOf_state rest s
    simp only [postingsOf, dgetII]
    exact h

theorem tfidfScan_state (log : ℕ → ℚ) (qtoks : List String) (k : ℕ) :
    ∀ (cands : List ℕ) (s : State) (acc : List (ℚ × ℕ)),
    (tfidfScan log qtoks k s cands acc).2 = s
  | [], _, _ => rfl
  | c :: rest, s, acc => by
    have h1 := scoreOf_state log qtoks s c
    have h2 := fun acc2 =>
      tfidfScan_state log qtoks k rest (scoreOf log s qtoks c).2 acc2
    simp only [tfidfScan]
    split
    · exact h1
    · split
      · simp_all
      · split
        · exact h1
        · simp only [py2_num_gt_tuple, Bool.false_eq_true, if_false]
          simp_all

/-! ### Claim C9: queries never mutate the index state -/

/-- **C9**: for every query, `boolean_query` and `tfidf_query` leave the
document store and the inverted index exactly as the most recent build
left them: both return the state they received, unchanged — their
evaluation consists solely of non-mutating reads (`dict.get`, list
indexing, `len`). -/
theorem queries_do_not_mutate_state (log : ℕ → ℚ) (s : State) (q : String) (k : ℕ) :
    (boolean_query s q k).2 = s ∧ (tfidf_query log s q k).2 = s := by
  constructor
  · have h := execute_state ("or" :: tokenize q) s ∅
    simp only [boolean_query]
    split
    · rfl
    · split <;> exact h
  · have h1 := postingsOf_state (tokenize q) s
    have h2 := fun cl =>
      tfidfScan_state log (tokenize q) k cl (postingsOf s (tokenize q)).2 []
    simp only [tfidf_query]
    split
    · exact h1
    · split <;> simp_all

/-! ### Claim C4: a rebuild does not clear the inverted index -/

/-- **C4** (the claim fails on the code): `build_index` reassigns the
global `dataset` but never resets the global `inverted_index`, so a
rebuild over a second, disjoint corpus is not an atomic replacement of
both structures.  Concretely: after building over `[("a.txt", "foo")]`
and then rebuilding over the disjoint corpus `[("b.txt", "bar")]`, the
first corpus's term `"foo"` still has its stale posting set `{0}` in the
inverted index. -/
theorem rebuild_retains_first_corpus_terms :
    iiGet (build_index (build_index emptyState [("a.txt", "foo")])
        [("b.txt", "bar")]).inverted_index "foo" = {0} := by decide

/-! ### Claim C7: the empty TF-IDF query raises instead of returning [] -/

/-- **C7** (the claim fails on the code): on a query string that tokenizes
to no terms, `tfidf_query` does not return an empty result — the candidate
generation calls `reduce(set.union, [])`, and `reduce()` of an empty
sequence with no initial value raises TypeError (modelled as `none`). -/
theorem tfidf_query_empty_query_raises (log : ℕ → ℚ) (s : State) (q : String)
    (k : ℕ) (h : tokenize q = []) : (tfidf_query log s q k).1 = none := by
  simp [tfidf_query, h, postingsOf, reduceUnion]

/-- Closed instance for the C7 theorem at the empty query string. -/
theorem tfidf_query_empty_query_raises_witness :
    tokenize "" = [] ∧ (tfidf_query (fun _ => 1) emptyState "" 10).1 = none :=
  ⟨by decide, tfidf_query_empty_query_raises (fun _ => 1) emptyState "" 10 (by decide)⟩

/-! ### Claim C8: tf divides by zero on a zero-length document -/

/-- **C8** (the claim fails on the code): `tf` is not total.  Indexing an
empty file yields a record with `length = 0`, and `tf` on it evaluates
`0 / float(0)`, which raises ZeroDivisionError (modelled as `none`)
instead of returning 0. -/
theorem tf_zero_length_doc_raises :
    (build_index emptyState [("empty.txt", "")]).dataset.get? 0 =
      some { filename := "empty.txt", counts := [], length := 0 } ∧
    (tf (build_index emptyState [("empty.txt", "")]) "a" 0).1 = none := by decide

/-! ### Helper lemmas: counts dictionaries -/

theorem alookup_bump_self : ∀ (c : List (String × ℕ)) (t : String),
    alookup (bump c t) t = some ((alookup c t).getD 0 + 1)
  | [], t => by simp [bump, alookup]
  | (k, v) :: rest, t => by
    by_cases h : k = t
    · subst h; simp [bump, alookup]
    · simp [bump, alookup, h, alookup_bump_self rest t]

theorem alookup_bump_ne : ∀ (c : List (String × ℕ)) (t u : String), u ≠ t →
    alookup (bump c t) u = alookup c u
  | [], t, u, h => by simp [bump, alookup, Ne.symm h]
  | (k, v) :: rest, t, u, h => by
    by_cases hkt : k = t
    · subst hkt
      simp [bump, alookup, Ne.symm h]
    · simp [bump, alookup, hkt, alookup_bump_ne rest t u h]

theorem valsum_cons (k : String) (v : ℕ) (l : List (String × ℕ)) :
    valsum ((k, v) :: l) = v + valsum l := rfl

theorem valsum_bump : ∀ (c : List (String × ℕ)) (t : String),
    valsum (bump c t) = valsum c + 1
  | [], _ => rfl
  | (k, v) :: rest, t => by
    by_cases h : k = t
    · subst h
      simp only [bump, eq_self_iff_true, if_true, valsum_cons]
      omega
    · simp only [bump, if_neg h, valsum_cons, valsum_bump rest t]
      omega

theorem alookup_foldl_bump_getD : ∀ (toks : List String) (c0 : List (String × ℕ))
    (t : String),
    (alookup (toks.foldl bump c0) t).getD 0 = (alookup c0 t).getD 0 + toks.count t
  | [], _, _ => by simp
  | w :: rest, c0, t => by
    rw [List.foldl_cons, alookup_foldl_bump_getD rest (bump c0 w) t]
    by_cases h : w = t
    · subst h
      rw [alookup_bump_self]
      simp [List.count_cons]
      omega
    · rw [alookup_bump_ne c0 w t (fun hh => h hh.symm)]
      simp [List.count_cons, h]

theorem alookup_foldl_bump_isSome : ∀ (toks : List String) (c0 : List (String × ℕ))
    (t : String),
    (alookup (toks.foldl bump c0) t).isSome ↔ (alookup c0 t).isSome ∨ t ∈ toks
  | [], _, _ => by simp
  | w :: rest, c0, t => by
    rw [List.foldl_cons, alookup_foldl_bump_isSome rest (bump c0 w) t]
    by_cases h : w = t
    · subst h
      rw [alookup_bump_self]
      simp
    · rw [alookup_bump_ne c0 w t (fun hh => h hh.symm)]
      simp only [List.mem_cons]
      constructor
      · rintro (h1 | h1)
        · exact Or.inl h1
        · exact Or.inr (Or.inr h1)
      · rintro (h1 | h1 | h1)
        · exact Or.inl h1
        · exact absurd h1.symm h
        · exact Or.inr h1

theorem valsum_foldl_bump : ∀ (toks : List String) (c0 : List (String × ℕ)),
    valsum (toks.foldl bump c0) = valsum c0 + toks.length
  | [], _ => by simp
  | w :: rest, c0 => by
    rw [List.foldl_cons, valsum_foldl_bump rest (bump c0 w), valsum_bump]
    simp; omega

/-! ### Helper lemmas: inverted-index insertion -/

theorem iiGet_iiAdd_self : ∀ (ii : InvIndex) (t : String) (i : ℕ),
    i ∈ iiGet (iiAdd ii t i) t
  | [], t, i => by simp [iiAdd, iiGet, alookup]
  | (k, v) :: rest, t, i => by
    by_cases h : k = t
    · subst h; simp [iiAdd, iiGet, alookup]
    · simpa [iiAdd, iiGet, alookup, h] using iiGet_iiAdd_self rest t i

theorem iiGet_iiAdd_subset : ∀ (ii : InvIndex) (t : String) (i : ℕ) (u : String),
    iiGet ii u ⊆ iiGet (iiAdd ii t i) u
  | [], t, i, u => by simp [iiGet, alookup]
  | (k, v) :: rest, t, i, u => by
    by_cases hkt : k = t
    · subst hkt
      by_cases hku : k = u
      · subst hku
        simp only [iiAdd, if_pos rfl, iiGet, alookup]
        exact Finset.subset_insert _ _
      · simp [iiAdd, iiGet, alookup, hku]
    · by_cases hku : k = u
      · subst hku
        simp [iiAdd, iiGet, alookup, hkt]
      · simpa [iiAdd, iiGet, alookup, hkt, hku] using iiGet_iiAdd_subset rest t i u

theorem iiGet_foldl_iiAdd_subset : ∀ (toks : List String) (ii : InvIndex) (f : ℕ)
    (u : String),
    iiGet ii u ⊆ iiGet (toks.foldl (fun a t => iiAdd a t f) ii) u
  | [], _, _, _ => Finset.Subset.refl _
  | w :: rest, ii, f, u =>
    (iiGet_iiAdd_subset ii w f u).trans (iiGet_foldl_iiAdd_subset rest (iiAdd ii w f) f u)

theorem mem_iiGet_foldl_iiAdd : ∀ (toks : List String) (ii : InvIndex) (f : ℕ)
    (t : String), t ∈ toks → f ∈ iiGet (toks.foldl (fun a x => iiAdd a x f) ii) t
  | [], _, _, _, h => absurd h (List.not_mem_nil _)
  | w :: rest, ii, f, t, h => by
    rcases List.mem_cons.mp h with h1 | h1
    · subst h1
      exact iiGet_foldl_iiAdd_subset rest (iiAdd ii t f) f t (iiGet_iiAdd_self ii t f)
    · exact mem_iiGet_foldl_iiAdd rest (iiAdd ii w f) f t h1

/-! ### Helper lemmas: index_document and buildAux -/

theorem idxFold_fst : ∀ (toks : List String) (c0 : List (String × ℕ)) (ii0 : InvIndex)
    (f : ℕ),
    (toks.foldl (fun (p : List (String × ℕ) × InvIndex) t => (bump p.1 t, iiAdd p.2 t f))
      (c0, ii0)).1 = toks.foldl bump c0
  | [], _, _, _ => rfl
  | w :: rest, c0, ii0, f => idxFold_fst rest (bump c0 w) (iiAdd ii0 w f) f

theorem idxFold_snd : ∀ (toks : List String) (c0 : List (String × ℕ)) (ii0 : InvIndex)
    (f : ℕ),
    (toks.foldl (fun (p : List (String × ℕ) × InvIndex) t => (bump p.1 t, iiAdd p.2 t f))
      (c0, ii0)).2 = toks.foldl (fun a t => iiAdd a t f) ii0
  | [], _, _, _ => rfl
  | w :: rest, c0, ii0, f => idxFold_snd rest (bump c0 w) (iiAdd ii0 w f) f

theorem index_document_fst (ii : InvIndex) (fn txt : String) (f : ℕ) :
    (index_document ii fn txt f).1 =
      { filename := fn, counts := (tokenize txt).foldl bump [],
        length := (tokenize txt).length } := by
  simp only [index_document, idxFold_fst]

theorem index_document_snd (ii : InvIndex) (fn txt : String) (f : ℕ) :
    (index_document ii fn txt f).2 = (tokenize txt).foldl (fun a t => iiAdd a t f) ii := by
  simp only [index_document, idxFold_snd]

theorem buildAux_spec : ∀ (rest : List (String × String)) (ii : InvIndex)
    (docs : List Doc),
    (buildAux ii docs rest).1.length = docs.length + rest.length ∧
    (∀ i, i < docs.length → (buildAux ii docs rest).1.get? i = docs.get? i) ∧
    (∀ u, iiGet ii u ⊆ iiGet (buildAux ii docs rest).2 u) ∧
    (∀ j fc, rest.get? j = some fc →
      ∃ d, (buildAux ii docs rest).1.get? (docs.length + j) = some d ∧
        d.filename = fc.1 ∧
        d.length = (tokenize fc.2).length ∧
        valsum d.counts = d.length ∧
        (∀ t, (alookup d.counts t).isSome ↔ t ∈ tokenize fc.2) ∧
        (∀ t, t ∈ tokenize fc.2 →
          (docs.length + j) ∈ iiGet (buildAux ii docs rest).2 t))
  | [], ii, docs => by
    refine ⟨by simp [buildAux], fun i _ => rfl, fun u => Finset.Subset.refl _, ?_⟩
    intro j fc h
    simp [buildAux] at h
  | (fn, txt) :: rest, ii, docs => by
    have heq : buildAux ii docs ((fn, txt) :: rest) =
        buildAux (index_document ii fn txt docs.length).2
          (docs ++ [(index_document ii fn txt docs.length).1]) rest := by
      simp only [buildAux]
    obtain ⟨ihlen, ihpre, ihmono, ihrec⟩ :=
      buildAux_spec rest (index_document ii fn txt docs.length).2
        (docs ++ [(index_document ii fn txt docs.length).1])
    rw [heq]
    refine ⟨?_, ?_, ?_, ?_⟩
    · rw [ihlen]; simp; omega
    · intro i hi
      rw [ihpre i (by simp; omega)]
      exact List.get?_append (by omega)
    · intro u
      refine Finset.Subset.trans ?_ (ihmono u)
      rw [index_document_snd]
      exact iiGet_foldl_iiAdd_subset (tokenize txt) ii docs.length u
    · intro j fc h
      match j with
      | 0 =>
        have hfc : fc = (fn, txt) := by
          simp only [List.get?_cons_zero] at h
          exact (Option.some_inj.mp h).symm
        subst hfc
        refine ⟨(index_document ii fn txt docs.length).1, ?_, ?_, ?_, ?_, ?_, ?_⟩
        · rw [Nat.add_zero]
          rw [ihpre docs.length (by simp)]
          exact List.get?_concat_length docs _
        · rw [index_document_fst]
        · rw [index_document_fst]
        · rw [index_document_fst]
          simp only
          rw [valsum_foldl_bump]
          simp [valsum]
        · intro t
          rw [index_document_fst]
          simp only
          rw [alookup_foldl_bump_isSome]
          simp [alookup]
        · intro t ht
          rw [Nat.add_zero]
          refine ihmono t ?_
          rw [index_document_snd]
          exact mem_iiGet_foldl_iiAdd (tokenize txt) ii docs.length t ht
      | j' + 1 =>
        have h' : rest.get? j' = some fc := h
        obtain ⟨d, hget, hfn, hlen, hval, hiff, hpost⟩ := ihrec j' fc h'
        have harith : (docs ++ [(index_document ii fn txt docs.length).1]).length + j' =
            docs.length + (j' + 1) := by simp; omega
        refine ⟨d, ?_, hfn, hlen, hval, hiff, ?_⟩
        · rw [← harith]; exact hget
        · intro t ht
          rw [← harith]; exact hpost t ht

/-! ### Claim C1: build_index produces a consistent store and index -/

/-- **C1**: for every corpus of `N` documents supplied in enumeration
order, `build_index` produces a document store with exactly `N` records
whose ids are `0..N-1` in enumeration order (the record at position `i`
is built from corpus entry `i`); each record's `counts` has an entry for a
term iff that term occurs at least once in the document's token stream,
the sum of the counts equals the record's `length`, and every term with an
entry in a record's `counts` has that record's id in its inverted-index
posting set. -/
theorem build_index_spec (s : State) (corpus : List (String × String)) :
    (build_index s corpus).dataset.length = corpus.length ∧
    ∀ i fc, corpus.get? i = some fc →
      ∃ d, (build_index s corpus).dataset.get? i = some d ∧
        d.length = (tokenize fc.2).length ∧
        (∀ t, (alookup d.counts t).isSome ↔ t ∈ tokenize fc.2) ∧
        valsum d.counts = d.length ∧
        ∀ t, (alookup d.counts t).isSome →
          i ∈ iiGet (build_index s corpus).inverted_index t := by
  obtain ⟨hlen, _, _, hrec⟩ := buildAux_spec corpus s.inverted_index []
  constructor
  · simpa [build_index] using hlen
  · intro i fc h
    obtain ⟨d, hget, _, hdlen, hval, hiff, hpost⟩ := hrec i fc h
    refine ⟨d, ?_, hdlen, hiff, hval, ?_⟩
    · simpa [build_index] using hget
    · intro t ht
      have hmem : t ∈ tokenize fc.2 := (hiff t).mp ht
      simpa [build_index] using hpost t hmem

/-- Closed instance for the C1 theorem: the one-document corpus
`[("f", "a b a")]`. -/
theorem build_index_spec_witness :
    (build_index emptyState [("f", "a b a")]).dataset.length = 1 ∧
    (∃ d, (build_index emptyState [("f", "a b a")]).dataset.get? 0 = some d ∧
      d.length = (tokenize "a b a").length ∧
      (∀ t, (alookup d.counts t).isSome ↔ t ∈ tokenize "a b a") ∧
      valsum d.counts = d.length ∧
      ∀ t, (alookup d.counts t).isSome →
        0 ∈ iiGet (build_index emptyState [("f", "a b a")]).inverted_index t) :=
  ⟨(build_index_spec emptyState [("f", "a b a")]).1,
   (build_index_spec emptyState [("f", "a b a")]).2 0 ("f", "a b a") (by decide)⟩

/-! ### Claim C3: the full top-k structure never replaces its minimum -/

/-- **C3** (the claim fails on the code): in `tfidf_query`'s candidate
scan, once the structure holds `max_results` entries the source evaluates
`score > result_set[0]`, comparing the bare score against the stored
`(score, id)` tuple; in Python 2 a number is never greater than a tuple,
so the condition is always false and the minimum is never replaced (had
the branch ever been taken, `heapreplace(resultset, ...)` would raise
NameError on the misspelled name).  Concretely, over the corpus
`[("d0", "a b"), ("d1", "a a")]` with query `"a"` and `max_results = 1`:
document 1 scores 1/3, strictly more than document 0's 1/6, yet the
returned top-1 list is `[0]` — the better candidate never replaces the
minimum. -/
theorem tfidf_query_never_replaces_min :
    (scoreOf (fun _ => 1) (build_index emptyState [("d0", "a b"), ("d1", "a a")])
        (tokenize "a") 0).1 = some (1/6 : ℚ) ∧
    (scoreOf (fun _ => 1) (build_index emptyState [("d0", "a b"), ("d1", "a a")])
        (tokenize "a") 1).1 = some (1/3 : ℚ) ∧
    (1/6 : ℚ) < 1/3 ∧
    (tfidf_query (fun _ => 1) (build_index emptyState [("d0", "a b"), ("d1", "a a")])
        "a" 1).1 = some [0] := by
  refine ⟨?_, ?_, by norm_num, by decide⟩
  · rw [show (scoreOf (fun _ => 1) (build_index emptyState [("d0", "a b"), ("d1", "a a")])
          (tokenize "a") 0).1
        = some ((((1:ℕ):ℚ) / ((2:ℕ):ℚ)) * ((1:ℚ) / (1 + ((2:ℕ):ℚ))) + 0) from rfl]
    norm_num
  · rw [show (scoreOf (fun _ => 1) (build_index emptyState [("d0", "a b"), ("d1", "a a")])
          (tokenize "a") 1).1
        = some ((((2:ℕ):ℚ) / ((2:ℕ):ℚ)) * ((1:ℚ) / (1 + ((2:ℕ):ℚ))) + 0) from rfl]
    norm_num

/-! ### Helper lemmas: candidate generation and the top-k scan -/

theorem postingsOf_fst : ∀ (toks : List String) (s : State),
    (postingsOf s toks).1 = toks.map (iiGet s.inverted_index)
  | [], _ => rfl
  | w :: rest, s => by
    simp only [postingsOf, dgetII, List.map_cons]
    rw [postingsOf_fst rest s]

theorem candidates_eq (ii : InvIndex) (w : String) (ws : List String) :
    (ws.map (iiGet ii)).foldl (· ∪ ·) (iiGet ii w) = unionPostings ii (w :: ws) := by
  simp [unionPostings, List.foldl_map]

theorem mem_insertDesc (p x : ℚ × ℕ) : ∀ (l : List (ℚ × ℕ)),
    p ∈ insertDesc x l ↔ p = x ∨ p ∈ l
  | [] => by simp [insertDesc]
  | y :: ys => by
    simp only [insertDesc]
    split
    · simp [List.mem_cons]
    · simp only [List.mem_cons, mem_insertDesc p x ys]
      tauto

theorem length_insertDesc (x : ℚ × ℕ) : ∀ (l : List (ℚ × ℕ)),
    (insertDesc x l).length = l.length + 1
  | [] => rfl
  | y :: ys => by
    simp only [insertDesc]
    split
    · simp
    · simp [length_insertDesc x ys]

theorem mem_sortPairsDesc (p : ℚ × ℕ) : ∀ (l : List (ℚ × ℕ)),
    p ∈ sortPairsDesc l ↔ p ∈ l
  | [] => Iff.rfl
  | x :: xs => by
    simp only [sortPairsDesc, mem_insertDesc, List.mem_cons, mem_sortPairsDesc p xs]

theorem length_sortPairsDesc : ∀ (l : List (ℚ × ℕ)),
    (sortPairsDesc l).length = l.length
  | [] => rfl
  | x :: xs => by
    simp only [sortPairsDesc, length_insertDesc, length_sortPairsDesc xs,
      List.length_cons]

theorem tfidfScan_sound (log : ℕ → ℚ) (qtoks : List String) (k : ℕ) :
    ∀ (cands : List ℕ) (s : State) (acc : List (ℚ × ℕ)) (r : List (ℚ × ℕ)),
    (tfidfScan log qtoks k s cands acc).1 = some r →
    (acc.length ≤ k → r.length ≤ k) ∧ (∀ p ∈ r, p ∈ acc ∨ p.2 ∈ cands)
  | [], s, acc, r => by
    intro h
    simp only [tfidfScan] at h
    have hacc : acc = r := by simpa using h
    subst hacc
    exact ⟨fun hh => hh, fun p hp => Or.inl hp⟩
  | c :: rest, s, acc, r => by
    intro h
    simp only [tfidfScan] at h
    split at h
    · simp at h
    · split at h
      · obtain ⟨hL, hM⟩ := tfidfScan_sound log qtoks k rest
          (scoreOf log s qtoks c).2 (acc ++ [_]) r h
        constructor
        · intro _
          refine hL ?_
          simp only [List.length_append, List.length_cons, List.length_nil]
          omega
        · intro p hp
          rcases hM p hp with h1 | h1
          · rcases List.mem_append.mp h1 with h2 | h2
            · exact Or.inl h2
            · right
              rw [List.mem_singleton.mp h2]
              simp
          · exact Or.inr (List.mem_cons_of_mem c h1)
      · split at h
        · simp at h
        · simp only [py2_num_gt_tuple, Bool.false_eq_true, if_false] at h
          obtain ⟨hL, hM⟩ := tfidfScan_sound log qtoks k rest
            (scoreOf log s qtoks c).2 acc r h
          exact ⟨hL, fun p hp => (hM p hp).imp id (List.mem_cons_of_mem c)⟩

/-! ### Claim C6: tfidf_query is bounded and draws only from candidates -/

/-- **C6**: whenever `tfidf_query` returns a result list, it holds at most
`max_results` document ids and every returned id belongs to the union of
the posting sets of the query's terms — only documents containing at
least one query term are ever returned. -/
theorem tfidf_query_bounded_and_sound (log : ℕ → ℚ) (s : State) (q : String)
    (k : ℕ) (_hk : 1 ≤ k) (l : List ℕ)
    (h : (tfidf_query log s q k).1 = some l) :
    l.length ≤ k ∧ ∀ i ∈ l, i ∈ unionPostings s.inverted_index (tokenize q) := by
  simp only [tfidf_query, postingsOf_fst, postingsOf_state] at h
  rcases htoks : tokenize q with _ | ⟨w, ws⟩ <;> rw [htoks] at h
  · simp [reduceUnion] at h
  · simp only [List.map_cons, reduceUnion, candidates_eq] at h
    split at h
    · simp at h
    · rename_i resl hscan
      obtain ⟨hL, hM⟩ := tfidfScan_sound log (w :: ws) k
        (setToList (unionPostings s.inverted_index (w :: ws))) s [] resl hscan
      have hl : (sortPairsDesc resl).map Prod.snd = l := by simpa using h
      subst hl
      constructor
      · rw [List.length_map, length_sortPairsDesc]
        exact hL (Nat.zero_le k)
      · intro i hi
        obtain ⟨p, hp, hpi⟩ := List.mem_map.mp hi
        rw [mem_sortPairsDesc] at hp
        rcases hM p hp with h1 | h1
        · exact absurd h1 (List.not_mem_nil p)
        · rw [← hpi]
          exact (mem_setToList p.2 _).mp h1

/-- Closed instance for the C6 theorem: query `"a"` with `max_results = 1`
over a two-document corpus returns `[0]`, which is one id drawn from the
posting union. -/
theorem tfidf_query_bounded_and_sound_witness :
    ([0] : List ℕ).length ≤ 1 ∧
    ∀ i ∈ ([0] : List ℕ),
      i ∈ unionPostings
        (build_index emptyState [("d0", "a"), ("d1", "a")]).inverted_index
        (tokenize "a") :=
  tfidf_query_bounded_and_sound (fun _ => 1)
    (build_index emptyState [("d0", "a"), ("d1", "a")]) "a" 1 (by decide) [0]
    (by decide)

/-! ### Claim C10: scores sum tf-idf per token occurrence -/

theorem tfidf_eq_value (log : ℕ → ℚ) (s : State) (w : String) (c : ℕ)
    (hc : c < s.dataset.length)
    (hlen : (s.dataset.getD c defaultDoc).length ≠ 0)
    (hds : s.dataset.length ≠ 0) :
    (tfidf log s w c).1 = some (tfidfValue log s w c) := by
  have hget : s.dataset.get? c = some (s.dataset.getD c defaultDoc) := by
    rcases hq : s.dataset.get? c with _ | d
    · rw [List.get?_eq_none] at hq; omega
    · rw [List.getD_eq_get?, hq]; rfl
  have htf : (tf s w c).1 =
      some (((alookup (s.dataset.getD c defaultDoc).counts w).getD 0 : ℚ) /
        ((s.dataset.getD c defaultDoc).length : ℚ)) := by
    simp only [tf, datasetAt, hget]
    rw [if_neg hlen]
  have hst : (tf s w c).2 = s := tf_state s w c
  have hidf : (idf log s w).1 =
      some (log s.dataset.length / (1 + ((iiGet s.inverted_index w).card : ℚ))) := by
    simp only [idf, dgetII]
    rw [if_neg hds]
  simp only [tfidf, htf, hst, hidf, tfidfValue]

theorem scoreOf_eq_sum (log : ℕ → ℚ) (s : State) (c : ℕ)
    (hc : c < s.dataset.length)
    (hlen : (s.dataset.getD c defaultDoc).length ≠ 0)
    (hds : s.dataset.length ≠ 0) : ∀ (toks : List String),
    (scoreOf log s toks c).1 = some ((toks.map (fun w => tfidfValue log s w c)).sum)
  | [] => by simp [scoreOf]
  | w :: rest => by
    have h1 := tfidf_eq_value log s w c hc hlen hds
    have h2 := tfidf_state log s w c
    have h3 := scoreOf_eq_sum log s c hc hlen hds rest
    simp only [scoreOf, h1, h2, h3, List.map_cons, List.sum_cons]

/-- **C10**: in `tfidf_query`, a candidate's score is the sum of tf·idf
over every token occurrence of the tokenized query, not over distinct
terms: a query term appearing `n` times in the query string contributes
`n` times its tf·idf value to the candidate's score. -/
theorem tfidf_score_counts_occurrences (log : ℕ → ℚ) (s : State) (q : String)
    (c : ℕ) (hc : c < s.dataset.length)
    (hlen : (s.dataset.getD c defaultDoc).length ≠ 0)
    (hds : s.dataset.length ≠ 0) :
    (scoreOf log s (tokenize q) c).1 =
      some (∑ t ∈ (tokenize q).toFinset,
        ((tokenize q).count t : ℚ) * tfidfValue log s t c) := by
  rw [scoreOf_eq_sum log s c hc hlen hds (tokenize q)]
  congr 1
  rw [Finset.sum_list_map_count]
  simp [nsmul_eq_mul]

/-- Closed instance for the C10 theorem: the query `"a a b"` over a
one-document corpus — the term `"a"` occurs twice and contributes twice
its tf·idf value. -/
theorem tfidf_score_counts_occurrences_witness :
    (0 < (build_index emptyState [("d", "a b")]).dataset.length) ∧
    (scoreOf (fun _ => 1) (build_index emptyState [("d", "a b")])
        (tokenize "a a b") 0).1 =
      some (∑ t ∈ (tokenize "a a b").toFinset,
        ((tokenize "a a b").count t : ℚ) *
          tfidfValue (fun _ => 1) (build_index emptyState [("d", "a b")]) t 0) :=
  ⟨by decide,
   tfidf_score_counts_occurrences (fun _ => 1)
     (build_index emptyState [("d", "a b")]) "a a b" 0
     (by decide) (by decide) (by decide)⟩

end SearchEngine
